import Mathlib

/-!
# inlinereview: extraction of `//%` / `#%` marker comments from a diff

A shallow embedding of `review.go`.

* Go strings and byte slices are modelled as `List Char`.  Every literal and
  every class of the pattern `reMatchComment` is ASCII and the byte `\n` never
  occurs inside a multi-byte UTF-8 sequence, so matching rune by rune on valid
  UTF-8 is the same as matching on the bytes.
* The regular expression is embedded as a backtracking matcher written in
  continuation-passing style, one combinator per construct of the pattern, in
  the priority order of Go's leftmost-first semantics (greedy repetition tries
  the longest run first, alternation tries its left branch first).
* `main` is embedded from the point where the revision and the parsed diff are
  available, as a state-passing function over a world that holds the state of
  the external tools and the trace of observable events.
-/

namespace InlineReview

/-! ## Library functions used by the source -/

/-- Class `\s` of Go's `regexp` (RE2 syntax): `[\t\n\f\r ]`. -/
def isSpaceClass (c : Char) : Bool :=
  c = '\t' || c = '\n' || c = '\x0c' || c = '\r' || c = ' '

/-- Class `.` of Go's `regexp` without the `s` flag: any character but `\n`. -/
def isDot (c : Char) : Bool :=
  c != '\n'

/-- Go's `unicode.IsSpace`: the Latin-1 cases `\t \n \v \f \r`, space, U+0085,
U+00A0, and beyond Latin-1 the `White_Space` table. -/
def unicodeIsSpace (c : Char) : Bool :=
  let n := c.toNat
  (9 ≤ n && n ≤ 13) || n = 32 || n = 133 || n = 160 || n = 5760 ||
  (8192 ≤ n && n ≤ 8202) || n = 8232 || n = 8233 || n = 8239 || n = 8287 || n = 12288

/-- Go's `strings.Join(elems, sep)`. -/
def stringsJoin (elems : List (List Char)) (sep : List Char) : List Char :=
  match elems with
  | [] => []
  | [e] => e
  | e :: es => e ++ sep ++ stringsJoin es sep

/-- Go's `strings.Trim(s, cutset)`: all leading and trailing characters that
belong to `cutset` removed. -/
def stringsTrim (s : List Char) (cutset : List Char) : List Char :=
  ((s.dropWhile (fun c => decide (c ∈ cutset))).reverse.dropWhile
    (fun c => decide (c ∈ cutset))).reverse

/-- Go's `strings.TrimSpace(s)`: all leading and trailing white space, as
defined by Unicode, removed. -/
def stringsTrimSpace (s : List Char) : List Char :=
  ((s.dropWhile unicodeIsSpace).reverse.dropWhile unicodeIsSpace).reverse

/-- Go's `int32` arithmetic: the two's-complement value of an integer result. -/
def wrapInt32 (x : Int) : Int :=
  (x + 2147483648) % 4294967296 - 2147483648

/-! ## The pattern `reMatchComment` -/

/-- Positions recorded by a successful match, each given as the input that
remains at that position: where group 1 opens, where group 1 closes, and where
the whole match ends. -/
structure MatchEnds where
  groupOpen : List Char
  groupClose : List Char
  matchEnd : List Char
deriving DecidableEq, Repr

/-- Multi-line `^`: at the beginning of the text or right after a `\n`.
`prev` is the character before the current position, if any. -/
def reBol {α : Type} (prev : Option Char) (k : List Char → Option α)
    (s : List Char) : Option α :=
  if prev = none ∨ prev = some '\n' then k s else none

/-- A literal character. -/
def reLit {α : Type} (c : Char) (k : List Char → Option α) : List Char → Option α
  | [] => none
  | x :: xs => if x = c then k xs else none

/-- Greedy `p*` for a character class `p`: first the longest run, then each
shorter one. -/
def reStar {α : Type} (p : Char → Bool) (k : List Char → Option α) :
    List Char → Option α
  | [] => k []
  | x :: xs =>
    if p x then
      match reStar p k xs with
      | some r => some r
      | none => k (x :: xs)
    else k (x :: xs)

/-- Greedy `p+` for a character class `p`: one character of the class, then
`p*`. -/
def rePlus {α : Type} (p : Char → Bool) (k : List Char → Option α) :
    List Char → Option α
  | [] => none
  | x :: xs => if p x then reStar p k xs else none

/-- Alternation `a|b`: the left branch with the rest of the pattern first, the
right branch when that fails. -/
def reAlt {α : Type} (a b : (List Char → Option α) → List Char → Option α)
    (k : List Char → Option α) (s : List Char) : Option α :=
  match a k s with
  | some r => some r
  | none => b k s

/-- Multi-line `$`: at the end of the text or right before a `\n`. -/
def reEol {α : Type} (k : List Char → Option α) : List Char → Option α
  | [] => k []
  | x :: xs => if x = '\n' then k (x :: xs) else none

/-- The part `(.+)$` of the pattern: group 1 opens where the part starts. -/
def reGroupToEol (gOpen : List Char) : Option MatchEnds :=
  rePlus isDot (fun gClose => reEol (fun e => some ⟨gOpen, gClose, e⟩) gClose) gOpen

/-- The part `(?://|#)%\s+(.+)$` of the pattern. -/
def reFromIntroducer : List Char → Option MatchEnds :=
  reAlt (fun k => reLit '/' (reLit '/' k)) (fun k => reLit '#' k)
    (reLit '%' (rePlus isSpaceClass reGroupToEol))

/-- The pattern `(?m)^\+\s*(?://|#)%\s+(.+)$` tried at one position of the
text: `prev` is the character before the position and `s` the text from the
position on. -/
def reMatchComment (prev : Option Char) (s : List Char) : Option MatchEnds :=
  reBol prev (reLit '+' (reStar isSpaceClass reFromIntroducer)) s

/-- One element of the result of `FindAllSubmatch`: index 0 is the text of the
whole match, index 1 the text of group 1. -/
structure Submatch where
  whole : List Char
  group1 : List Char
deriving DecidableEq, Repr

/-- The text between two positions of the same input, each position given as
the input remaining there. -/
def textBetween (start stop : List Char) : List Char :=
  start.take (start.length - stop.length)

/-- The submatch texts of a match that starts at `s`. -/
def submatchOf (s : List Char) (m : MatchEnds) : Submatch :=
  ⟨textBetween s m.matchEnd, textBetween m.groupOpen m.groupClose⟩

/-- Scan of `FindAllSubmatch(body, -1)`: successive non-overlapping matches,
leftmost first.  `prev` is the character before the current position and
`skip` the number of characters still to pass before the end of the last
match, where the search resumes.  The pattern starts with a literal, so it has
no empty match and cannot match at the end of the text. -/
def findAllFrom : Option Char → Nat → List Char → List Submatch
  | _, _, [] => []
  | _, skip + 1, c :: cs => findAllFrom (some c) skip cs
  | prev, 0, c :: cs =>
    match reMatchComment prev (c :: cs) with
    | some m =>
      submatchOf (c :: cs) m ::
        findAllFrom (some c) ((textBetween (c :: cs) m.matchEnd).length - 1) cs
    | none => findAllFrom (some c) 0 cs

/-- The call `reMatchComment.FindAllSubmatch(body, -1)`. -/
def findAllSubmatch (body : List Char) : List Submatch :=
  findAllFrom none 0 body

/-! ## `parseHunkToText` -/

/-- The function `parseHunkToText`: the texts of group 1 of all matches, joined
with `\n`, with spaces and tabs trimmed from both ends. -/
def parseHunkToText (body : List Char) : List Char :=
  let lines := (findAllSubmatch body).map (fun l => l.group1)
  stringsTrim (stringsJoin lines ['\n']) [' ', '\t']

/-! ## `main`, from the parsed diff on -/

/-- The fields of `godiff.Hunk` that `main` reads: `OrigStartLine` is an
`int32`, `Body` the raw lines of the hunk with their `+`, `-` or space. -/
structure Hunk where
  OrigStartLine : Int
  Body : List Char
deriving DecidableEq, Repr

/-- The fields of `godiff.FileDiff` that `main` reads. -/
structure FileDiff where
  OrigName : String
  Hunks : List Hunk
deriving DecidableEq, Repr

/-- Input for the conduit method `differential.createinline`. -/
structure conduitCreateInlineComment where
  RevisionID : String
  FilePath : String
  IsNewFile : Int
  LineNumber : Int
  Content : List Char
deriving DecidableEq, Repr

/-- What a run of `arc call-conduit` gives back to `createInlineDiff`: the
command failed, its output is not the JSON of a `conduitResponse`, or the
decoded response with its fields `error` and `errorMessage`. -/
inductive ConduitReply where
  | execFailed
  | badOutput
  | response (error errorMessage : String)
deriving DecidableEq, Repr

/-- The external tools: each call sees and updates a tool state `σ`. -/
structure Tools (σ : Type) where
  callConduit : σ → conduitCreateInlineComment → ConduitReply × σ
  browse : σ → String → Bool × σ

/-- Observable events of a run, in order. -/
inductive Event where
  | logComment (path : String) (line : Int) (body : List Char)
  | conduit (args : conduitCreateInlineComment)
  | logPayload (args : conduitCreateInlineComment)
  | logConduitOutput
  | logSubmitError
  | browse (object : String)
  | logFatal
deriving DecidableEq, Repr

/-- State of a run: the state of the external tools and the events so far. -/
structure World (σ : Type) where
  tools : σ
  trace : List Event

/-- The function `createInlineDiff`: one call of `arc call-conduit
differential.createinline` with the payload on its standard input.  Returns
`true` when the result is an error.  (`json.Marshal` cannot fail on this
struct.) -/
def createInlineDiff {σ : Type} (T : Tools σ) (revision : String) (filePath : String)
    (lineNumber : Int) (content : List Char) (w : World σ) : Bool × World σ :=
  let args : conduitCreateInlineComment :=
    { RevisionID := revision, FilePath := filePath, IsNewFile := 1,
      LineNumber := lineNumber, Content := content }
  let (reply, st) := T.callConduit w.tools args
  let w1 : World σ := { tools := st, trace := w.trace ++ [Event.conduit args] }
  match reply with
  | ConduitReply.execFailed => (true, w1)
  | ConduitReply.badOutput => (true, w1)
  | ConduitReply.response error _ =>
    if error ≠ "" then
      (true, { w1 with trace := w1.trace ++ [Event.logPayload args, Event.logConduitOutput] })
    else (false, w1)

/-- The function `arcBrowse`: `arc browse object`; `true` when it failed. -/
def arcBrowse {σ : Type} (T : Tools σ) (object : String) (w : World σ) : Bool × World σ :=
  let (ok, st) := T.browse w.tools object
  (!ok, { tools := st, trace := w.trace ++ [Event.browse object] })

/-- Body of the inner loop of `main` for hunk `h` of file `d`. -/
def hunkStep {σ : Type} (T : Tools σ) (revisionID : String) (d : FileDiff)
    (w : World σ) (h : Hunk) : World σ :=
  let line := wrapInt32 (h.OrigStartLine + 1)
  let body := parseHunkToText h.Body
  if stringsTrimSpace body = [] then w
  else
    let w1 : World σ := { w with trace := w.trace ++ [Event.logComment d.OrigName line body] }
    let (err, w2) := createInlineDiff T revisionID d.OrigName line body w1
    if err then { w2 with trace := w2.trace ++ [Event.logSubmitError] } else w2

/-- The two nested loops of `main` over the files and their hunks. -/
def mainLoop {σ : Type} (T : Tools σ) (revisionID : String) (p : List FileDiff)
    (w : World σ) : World σ :=
  p.foldl (fun w d => d.Hunks.foldl (hunkStep T revisionID d) w) w

/-- The function `main` from the parsed diff `p` on: the loops, then the
browser.  The result is the exit status and the final world. -/
def main {σ : Type} (T : Tools σ) (revisionID : String) (p : List FileDiff)
    (w : World σ) : Nat × World σ :=
  let w1 := mainLoop T revisionID p w
  let (err, w2) := arcBrowse T "HEAD" w1
  if err then (1, { w2 with trace := w2.trace ++ [Event.logFatal] }) else (0, w2)

/-- The payloads handed to the comment submission tool, in order. -/
def submissions (trace : List Event) : List conduitCreateInlineComment :=
  trace.filterMap (fun e => match e with
    | Event.conduit args => some args
    | _ => none)

/-! ## Shapes of hunk bodies named by the specification -/

/-- A run of spaces and tabs, possibly empty. -/
def blankRun (w : List Char) : Bool :=
  w.all (fun c => c = ' ' || c = '\t')

/-- The two comment introducers. -/
inductive Introducer where
  | slashes
  | hash
deriving DecidableEq, Repr

/-- The characters of an introducer: `//%` or `#%`. -/
def Introducer.text : Introducer → List Char
  | Introducer.slashes => ['/', '/', '%']
  | Introducer.hash => ['#', '%']

/-- The text begins with `//%` or with `#%`. -/
def beginsWithIntroducer : List Char → Bool
  | '/' :: '/' :: '%' :: _ => true
  | '#' :: '%' :: _ => true
  | _ => false

/-- A marker line in its parts: `+`, `indent`, the introducer, `gap`, `text`. -/
structure MarkerLine where
  indent : List Char
  intro : Introducer
  gap : List Char
  text : List Char
deriving DecidableEq, Repr

/-- The characters of a marker line. -/
def MarkerLine.render (m : MarkerLine) : List Char :=
  '+' :: (m.indent ++ (m.intro.text ++ (m.gap ++ m.text)))

/-- A well-formed marker line: the indentation is a run of spaces and tabs, the
gap a non-empty such run, and the text is non-empty, has no line break and
neither begins nor ends with a whitespace character. -/
def MarkerLine.wellFormed (m : MarkerLine) : Bool :=
  blankRun m.indent && (m.gap ≠ [] && blankRun m.gap) &&
  (m.text ≠ [] && m.text.all (fun c => c ≠ '\n') &&
    !(m.text.head?.any isSpaceClass) && !(m.text.getLast?.any isSpaceClass))

/-- An added line of a hunk body: a marker line, or `+` followed by other
content. -/
inductive AddedLine where
  | marker (m : MarkerLine)
  | ordinary (content : List Char)
deriving DecidableEq, Repr

/-- The characters of an added line. -/
def AddedLine.render : AddedLine → List Char
  | AddedLine.marker m => m.render
  | AddedLine.ordinary content => '+' :: content

/-- A marker line is well-formed; the content of an ordinary line has no line
break and, after its leading whitespace, does not begin with an introducer. -/
def AddedLine.wellFormed : AddedLine → Bool
  | AddedLine.marker m => m.wellFormed
  | AddedLine.ordinary content =>
    content.all (fun c => c ≠ '\n') &&
      !beginsWithIntroducer (content.dropWhile isSpaceClass)

/-- The marker text an added line carries, if it is a marker line. -/
def AddedLine.markerText : AddedLine → Option (List Char)
  | AddedLine.marker m => some m.text
  | AddedLine.ordinary _ => none

/-- The added line is a marker line. -/
def AddedLine.isMarker : AddedLine → Bool
  | AddedLine.marker _ => true
  | AddedLine.ordinary _ => false

/-- The match an added line is expected to give: for a marker line the whole
line with its text as group 1, for an ordinary line none. -/
def AddedLine.submatch : AddedLine → Option Submatch
  | AddedLine.marker m => some ⟨m.render, m.text⟩
  | AddedLine.ordinary _ => none

/-- A hunk body made of the given lines separated by `\n`, with a `\n` after
the last line when `final` is set. -/
def hunkBody (final : Bool) : List (List Char) → List Char
  | [] => []
  | [l] => if final then l ++ ['\n'] else l
  | l :: ls => l ++ '\n' :: hunkBody final ls

/-- The lines of a text: the pieces between its `\n` characters. -/
def linesOf : List Char → List (List Char)
  | [] => [[]]
  | c :: cs =>
    if c = '\n' then [] :: linesOf cs
    else
      match linesOf cs with
      | [] => [[c]]
      | l :: ls => (c :: l) :: ls

/-- The text has `pat` as a contiguous piece. -/
def containsText (pat : List Char) : List Char → Bool
  | [] => pat.isEmpty
  | c :: cs => pat.isPrefixOf (c :: cs) || containsText pat cs

/-- The hunk produces a comment: the loop of `main` does not skip it. -/
def producesComment (h : Hunk) : Bool :=
  stringsTrimSpace (parseHunkToText h.Body) ≠ []

/-- The payload that the loop of `main` hands to `createInlineDiff` for hunk
`h` of file `d`. -/
def commentOf (revisionID : String) (d : FileDiff) (h : Hunk) : conduitCreateInlineComment :=
  { RevisionID := revisionID, FilePath := d.OrigName, IsNewFile := 1,
    LineNumber := wrapInt32 (h.OrigStartLine + 1), Content := parseHunkToText h.Body }

/-- A parsed diff of two files: the first has a hunk with a marker comment of
two lines and a hunk with an ordinary addition, the second has no marker
comment. -/
def twoFileDiff : List FileDiff :=
  [ { OrigName := "a.go",
      Hunks := [⟨10, "+//% foo\n+//% bar\n".toList⟩, ⟨20, "+x := 1\n".toList⟩] },
    { OrigName := "b.go", Hunks := [⟨5, "+y := 2\n".toList⟩] } ]

/-- A parsed diff of one file with two hunks that each carry a marker
comment. -/
def twoCommentDiff : List FileDiff :=
  [ { OrigName := "a.go",
      Hunks := [⟨3, "+//% first\n".toList⟩, ⟨7, "+#% second\n".toList⟩] } ]

/-- Tools for running `main` on an example: the conduit call always succeeds
(its response has an empty `error`), and so does the browser. -/
def acceptingTools : Tools Unit where
  callConduit := fun st _ => (ConduitReply.response "" "", st)
  browse := fun st _ => (true, st)

/-- Tools for running `main` on an example: the conduit call always reports
an error in its response; the browser works. -/
def rejectingTools : Tools Unit where
  callConduit := fun st _ => (ConduitReply.response "ERR-CONDUIT-CORE" "rejected", st)
  browse := fun st _ => (true, st)

/-! ## The combinators -/

theorem reStar_append_some {α : Type} (p : Char → Bool) (k : List Char → Option α)
    (w rest : List Char) (r : α) (hw : ∀ c ∈ w, p c = true)
    (h : reStar p k rest = some r) : reStar p k (w ++ rest) = some r := by
  induction w with
  | nil => simpa using h
  | cons x xs ih =>
    have hx : p x = true := hw x (List.mem_cons_self _ _)
    have hxs : reStar p k (xs ++ rest) = some r :=
      ih (fun c hc => hw c (List.mem_cons_of_mem _ hc))
    simp [reStar, hx, hxs]

theorem reStar_dropWhile {α : Type} (p : Char → Bool) (k : List Char → Option α)
    (hcons : ∀ x xs, p x = true → k (x :: xs) = none)
    (s : List Char) : reStar p k s = k (s.dropWhile p) := by
  induction s with
  | nil => simp [reStar]
  | cons x xs ih =>
    by_cases hx : p x = true
    · simp only [reStar, hx, if_true, List.dropWhile_cons_of_pos, ih, hcons x xs hx]
      cases k (List.dropWhile p xs) <;> rfl
    · simp [reStar, hx]

theorem reStar_sound {α : Type} (p : Char → Bool) (k : List Char → Option α)
    (s : List Char) (r : α) (h : reStar p k s = some r) :
    ∃ w rest, s = w ++ rest ∧ (∀ c ∈ w, p c = true) ∧ k rest = some r := by
  induction s with
  | nil => exact ⟨[], [], rfl, by simp, by simpa [reStar] using h⟩
  | cons x xs ih =>
    by_cases hx : p x = true
    · simp only [reStar, hx, if_true] at h
      cases hrec : reStar p k xs with
      | some r1 =>
        rw [hrec] at h
        obtain ⟨w, rest, hs, hw, hk⟩ := ih (by rw [hrec]; exact h)
        refine ⟨x :: w, rest, by simp [hs], ?_, hk⟩
        intro c hc
        rcases List.mem_cons.mp hc with rfl | hc
        · exact hx
        · exact hw c hc
      | none =>
        rw [hrec] at h
        exact ⟨[], x :: xs, rfl, by simp, h⟩
    · simp only [reStar, hx] at h
      exact ⟨[], x :: xs, rfl, by simp, by simpa using h⟩

theorem dropWhile_run_append (p : Char → Bool) (w rest : List Char)
    (hw : ∀ c ∈ w, p c = true) (hrest : rest.head?.any p = false) :
    (w ++ rest).dropWhile p = rest := by
  induction w with
  | nil =>
    cases rest with
    | nil => rfl
    | cons y ys =>
      have : p y = false := by simpa using hrest
      simp [List.dropWhile, this]
  | cons x xs ih =>
    have hx : p x = true := hw x (List.mem_cons_self _ _)
    simp [List.dropWhile, hx, ih (fun c hc => hw c (List.mem_cons_of_mem _ hc))]

theorem textBetween_append (a b : List Char) : textBetween (a ++ b) b = a := by
  simp [textBetween]

/-! ## The pattern at one position -/

theorem isSpaceClass_cases (c : Char) (h : isSpaceClass c = true) :
    c = '\t' ∨ c = '\n' ∨ c = '\x0c' ∨ c = '\r' ∨ c = ' ' := by
  simp only [isSpaceClass, Bool.or_eq_true, decide_eq_true_eq] at h
  tauto

theorem reGroupToEol_line (t T : List Char) (ht : t ≠ [])
    (hnl : ∀ c ∈ t, c ≠ '\n') (hT : T = [] ∨ ∃ R, T = '\n' :: R) :
    reGroupToEol (t ++ T) = some ⟨t ++ T, T, T⟩ := by
  cases t with
  | nil => exact absurd rfl ht
  | cons x xs =>
    have hx : isDot x = true := by
      simpa [isDot] using hnl x (List.mem_cons_self _ _)
    have hxs : ∀ c ∈ xs, isDot c = true := by
      intro c hc
      simpa [isDot] using hnl c (List.mem_cons_of_mem _ hc)
    have hend : reStar isDot
        (fun gClose => reEol (fun e => some (⟨x :: xs ++ T, gClose, e⟩ : MatchEnds)) gClose) T
        = some ⟨x :: xs ++ T, T, T⟩ := by
      rcases hT with rfl | ⟨R, rfl⟩
      · simp [reStar, reEol]
      · simp [reStar, reEol, isDot]
    have := reStar_append_some isDot _ xs T _ hxs hend
    simpa [reGroupToEol, rePlus, hx] using this

theorem reFromIntroducer_space (x : Char) (xs : List Char) (hx : isSpaceClass x = true) :
    reFromIntroducer (x :: xs) = none := by
  rcases isSpaceClass_cases x hx with rfl | rfl | rfl | rfl | rfl <;>
    simp [reFromIntroducer, reAlt, reLit]

theorem reFromIntroducer_begins (r : List Char) (h : beginsWithIntroducer r = false) :
    reFromIntroducer r = none := by
  unfold reFromIntroducer reAlt
  match r, h with
  | [], _ => simp [reLit]
  | [a], _ =>
    by_cases h1 : a = '/' <;> by_cases h2 : a = '#' <;> simp_all [reLit]
  | [a, b], h =>
    by_cases h1 : a = '/' <;> by_cases h2 : a = '#' <;> by_cases h3 : b = '/' <;>
      by_cases h4 : b = '%' <;> simp_all [reLit, beginsWithIntroducer]
  | a :: b :: c :: rest, h =>
    by_cases h1 : a = '/' <;> by_cases h2 : a = '#' <;> by_cases h3 : b = '/' <;>
      by_cases h4 : b = '%' <;> by_cases h5 : c = '%' <;>
      simp_all [reLit, beginsWithIntroducer]

theorem reMatchComment_plus (prev : Option Char) (s : List Char)
    (hbol : prev = none ∨ prev = some '\n') :
    reMatchComment prev ('+' :: s) = reFromIntroducer (s.dropWhile isSpaceClass) := by
  have := reStar_dropWhile isSpaceClass reFromIntroducer reFromIntroducer_space s
  simp [reMatchComment, reBol, hbol, reLit, this]

theorem reMatchComment_not_bol (c : Char) (s : List Char) (hc : c ≠ '\n') :
    reMatchComment (some c) s = none := by
  simp [reMatchComment, reBol, hc]

theorem reMatchComment_not_plus (prev : Option Char) (c : Char) (s : List Char)
    (hc : c ≠ '+') : reMatchComment prev (c :: s) = none := by
  simp only [reMatchComment, reBol]
  split <;> simp [reLit, hc]

theorem reMatchComment_nil (prev : Option Char) : reMatchComment prev [] = none := by
  simp only [reMatchComment, reBol]
  split <;> simp [reLit]

theorem blankRun_space (w : List Char) (hw : blankRun w = true) :
    ∀ c ∈ w, isSpaceClass c = true := by
  intro c hc
  have := (List.all_eq_true.mp hw) c hc
  simp only [Bool.or_eq_true, decide_eq_true_eq] at this
  rcases this with rfl | rfl <;> decide

theorem reFromIntroducer_marker (i : Introducer) (gap text T : List Char)
    (hgap : gap ≠ []) (hblank : blankRun gap = true) (ht : text ≠ [])
    (hhead : text.head?.any isSpaceClass = false) (hnl : ∀ c ∈ text, c ≠ '\n')
    (hT : T = [] ∨ ∃ R, T = '\n' :: R) :
    reFromIntroducer (i.text ++ (gap ++ (text ++ T))) = some ⟨text ++ T, T, T⟩ := by
  have hgroup := reGroupToEol_line text T ht hnl hT
  have hstar : reStar isSpaceClass reGroupToEol (text ++ T) = some ⟨text ++ T, T, T⟩ := by
    cases text with
    | nil => exact absurd rfl ht
    | cons x xs =>
      have hx : isSpaceClass x = false := by simpa using hhead
      simpa [reStar, hx] using hgroup
  cases gap with
  | nil => exact absurd rfl hgap
  | cons g gs =>
    have hall := blankRun_space (g :: gs) hblank
    have hg : isSpaceClass g = true := hall g (List.mem_cons_self _ _)
    have hrun := reStar_append_some isSpaceClass reGroupToEol gs (text ++ T) _
      (fun c hc => hall c (List.mem_cons_of_mem _ hc)) hstar
    cases i <;> simp [Introducer.text, reFromIntroducer, reAlt, reLit, rePlus, hg, hrun]

theorem Introducer.head_not_space (i : Introducer) (rest : List Char) :
    (i.text ++ rest).head?.any isSpaceClass = false := by
  cases i <;> simp [Introducer.text, isSpaceClass]

theorem reMatchComment_marker (prev : Option Char) (m : MarkerLine) (T : List Char)
    (hbol : prev = none ∨ prev = some '\n') (hm : m.wellFormed = true)
    (hT : T = [] ∨ ∃ R, T = '\n' :: R) :
    reMatchComment prev (m.render ++ T) = some ⟨m.text ++ T, T, T⟩ := by
  simp only [MarkerLine.wellFormed, Bool.and_eq_true, decide_eq_true_eq,
    Bool.not_eq_true', List.all_eq_true] at hm
  obtain ⟨⟨hind, hgap, hblank⟩, ⟨⟨ht, hnl⟩, hhead⟩, _⟩ := hm
  have hdrop : (m.indent ++ (m.intro.text ++ (m.gap ++ (m.text ++ T)))).dropWhile isSpaceClass
      = m.intro.text ++ (m.gap ++ (m.text ++ T)) :=
    dropWhile_run_append isSpaceClass _ _ (blankRun_space _ hind)
      (Introducer.head_not_space _ _)
  have := reFromIntroducer_marker m.intro m.gap m.text T hgap hblank ht hhead hnl hT
  simp only [MarkerLine.render, List.cons_append, List.append_assoc]
  rw [reMatchComment_plus prev _ hbol, hdrop, this]

/-! ## The scan -/

theorem findAllFrom_skip (prev : Option Char) (xs T : List Char) :
    findAllFrom prev xs.length (xs ++ T) =
      findAllFrom (match xs.getLast? with
        | some y => some y
        | none => prev) 0 T := by
  induction xs generalizing prev with
  | nil => simp
  | cons y ys ih =>
    have step : findAllFrom prev (y :: ys).length (y :: ys ++ T) =
        findAllFrom (some y) ys.length (ys ++ T) := by
      simp [findAllFrom]
    rw [step, ih]
    cases ys with
    | nil => simp
    | cons z zs =>
      rw [List.getLast?_cons_cons]
      have hl : (z :: zs).getLast? = some ((z :: zs).getLast (by simp)) :=
        List.getLast?_eq_getLast _ _
      rw [hl]

theorem findAllFrom_inside_end (c0 : Char) (s : List Char) (h0 : c0 ≠ '\n')
    (hs : ∀ c ∈ s, c ≠ '\n') : findAllFrom (some c0) 0 s = [] := by
  induction s generalizing c0 with
  | nil => simp [findAllFrom]
  | cons y ys ih =>
    have hy : y ≠ '\n' := hs y (List.mem_cons_self _ _)
    simp [findAllFrom, reMatchComment_not_bol c0 _ h0,
      ih y hy (fun c hc => hs c (List.mem_cons_of_mem _ hc))]

theorem findAllFrom_inside_nl (c0 : Char) (s R : List Char) (h0 : c0 ≠ '\n')
    (hs : ∀ c ∈ s, c ≠ '\n') :
    findAllFrom (some c0) 0 (s ++ '\n' :: R) = findAllFrom (some '\n') 0 R := by
  induction s generalizing c0 with
  | nil => simp [findAllFrom, reMatchComment_not_bol c0 _ h0]
  | cons y ys ih =>
    have hy : y ≠ '\n' := hs y (List.mem_cons_self _ _)
    simp [findAllFrom, reMatchComment_not_bol c0 _ h0,
      ih y hy (fun c hc => hs c (List.mem_cons_of_mem _ hc))]

/-- After a match that covers exactly `x :: xs`, the scan resumes behind it. -/
theorem findAllFrom_match (prev : Option Char) (x : Char) (xs T : List Char)
    (m : MatchEnds) (hm : reMatchComment prev (x :: xs ++ T) = some m)
    (hend : m.matchEnd = T) :
    findAllFrom prev 0 (x :: xs ++ T) =
      submatchOf (x :: xs ++ T) m ::
        findAllFrom (match xs.getLast? with
          | some y => some y
          | none => some x) 0 T := by
  have hlen : (textBetween (x :: (xs ++ T)) m.matchEnd).length - 1 = xs.length := by
    rw [hend]
    have := textBetween_append (x :: xs) T
    simp only [List.cons_append] at this
    rw [this]
    simp
  simp only [List.cons_append] at hm ⊢
  simp only [findAllFrom, hm, hlen, findAllFrom_skip]

/-! ## Scanning a body line by line -/

theorem findAllFrom_inside (c0 : Char) (s T : List Char) (h0 : c0 ≠ '\n')
    (hs : ∀ c ∈ s, c ≠ '\n') (hT : T = [] ∨ ∃ R, T = '\n' :: R) :
    findAllFrom (some c0) 0 (s ++ T) = findAllFrom (some '\n') 0 T.tail := by
  rcases hT with rfl | ⟨R, rfl⟩
  · simp [findAllFrom_inside_end c0 s h0 hs, findAllFrom]
  · simp [findAllFrom_inside_nl c0 s R h0 hs]

theorem MarkerLine.text_no_newline (m : MarkerLine) (hm : m.wellFormed = true) :
    m.text ≠ [] ∧ ∀ c ∈ m.text, c ≠ '\n' := by
  simp only [MarkerLine.wellFormed, Bool.and_eq_true, decide_eq_true_eq,
    Bool.not_eq_true', List.all_eq_true] at hm
  exact ⟨hm.2.1.1.1, hm.2.1.1.2⟩

theorem findAllFrom_marker (prev : Option Char) (m : MarkerLine) (T : List Char)
    (hbol : prev = none ∨ prev = some '\n') (hm : m.wellFormed = true)
    (hT : T = [] ∨ ∃ R, T = '\n' :: R) :
    findAllFrom prev 0 (m.render ++ T) =
      ⟨m.render, m.text⟩ :: findAllFrom (some '\n') 0 T.tail := by
  have hmatch := reMatchComment_marker prev m T hbol hm hT
  obtain ⟨hne, hnl⟩ := m.text_no_newline hm
  have hscan := findAllFrom_match prev '+' (m.indent ++ (m.intro.text ++ (m.gap ++ m.text))) T
    _ hmatch rfl
  have hsub : submatchOf (m.render ++ T) ⟨m.text ++ T, T, T⟩ = ⟨m.render, m.text⟩ := by
    simp [submatchOf, textBetween_append]
  obtain ⟨ys, y, hy⟩ : ∃ ys y, m.text = ys ++ [y] := by
    rcases List.eq_nil_or_concat m.text with h | ⟨ys, y, h⟩
    · exact absurd h hne
    · exact ⟨ys, y, by simpa using h⟩
  have hyn : y ≠ '\n' := hnl y (by simp [hy])
  have hlast : (m.indent ++ (m.intro.text ++ (m.gap ++ m.text))).getLast? = some y := by
    rw [hy, ← List.append_assoc, ← List.append_assoc, ← List.append_assoc]
    exact List.getLast?_concat _
  rw [hlast] at hscan
  have hin := findAllFrom_inside y [] T hyn (by simp) hT
  simp only [List.nil_append] at hin
  rw [MarkerLine.render]
  rw [MarkerLine.render] at hsub
  rw [hscan, hsub, hin]

theorem beginsWithIntroducer_append (a T : List Char)
    (ha : beginsWithIntroducer a = false) (hnl : ∀ c ∈ a, c ≠ '\n')
    (hT : T = [] ∨ ∃ R, T = '\n' :: R) (hne : a ≠ []) :
    beginsWithIntroducer (a ++ T) = false := by
  rcases hT with rfl | ⟨R, rfl⟩
  · simpa using ha
  · match a, ha, hne with
    | [x], _, _ =>
      by_cases h1 : x = '/' <;> by_cases h2 : x = '#' <;>
        simp_all [beginsWithIntroducer]
    | [x, y], ha, _ =>
      by_cases h1 : x = '/' <;> by_cases h2 : x = '#' <;> by_cases h3 : y = '/' <;>
        by_cases h4 : y = '%' <;> simp_all [beginsWithIntroducer]
    | x :: y :: z :: rest, ha, _ =>
      by_cases h1 : x = '/' <;> by_cases h2 : x = '#' <;> by_cases h3 : y = '/' <;>
        by_cases h4 : y = '%' <;> by_cases h5 : z = '%' <;>
        simp_all [beginsWithIntroducer]

theorem dropWhile_ordinary (content T : List Char)
    (hnl : ∀ c ∈ content, c ≠ '\n')
    (hc : beginsWithIntroducer (content.dropWhile isSpaceClass) = false)
    (hT : T = [] ∨ T = ['\n'] ∨ ∃ R, T = '\n' :: '+' :: R) :
    beginsWithIntroducer ((content ++ T).dropWhile isSpaceClass) = false := by
  induction content with
  | nil =>
    rcases hT with rfl | rfl | ⟨R, rfl⟩ <;>
      simp [List.dropWhile, isSpaceClass, beginsWithIntroducer]
  | cons x xs ih =>
    by_cases hx : isSpaceClass x = true
    · simp only [List.cons_append, List.dropWhile_cons_of_pos hx] at hc ⊢
      exact ih (fun c h => hnl c (List.mem_cons_of_mem _ h)) hc
    · simp only [List.cons_append, List.dropWhile_cons_of_neg hx] at hc ⊢
      have hT2 : T = [] ∨ ∃ R, T = '\n' :: R := by
        rcases hT with rfl | rfl | ⟨R, rfl⟩
        · exact Or.inl rfl
        · exact Or.inr ⟨[], rfl⟩
        · exact Or.inr ⟨_, rfl⟩
      have := beginsWithIntroducer_append (x :: xs) T hc hnl hT2 (by simp)
      simpa using this

theorem findAllFrom_ordinary (prev : Option Char) (content T : List Char)
    (hw : (AddedLine.ordinary content).wellFormed = true)
    (hT : T = [] ∨ T = ['\n'] ∨ ∃ R, T = '\n' :: '+' :: R) :
    findAllFrom prev 0 ('+' :: content ++ T) = findAllFrom (some '\n') 0 T.tail := by
  simp only [AddedLine.wellFormed, Bool.and_eq_true, List.all_eq_true, decide_eq_true_eq,
    Bool.not_eq_true'] at hw
  obtain ⟨hnl, hc⟩ := hw
  have hT2 : T = [] ∨ ∃ R, T = '\n' :: R := by
    rcases hT with rfl | rfl | ⟨R, rfl⟩
    · exact Or.inl rfl
    · exact Or.inr ⟨[], rfl⟩
    · exact Or.inr ⟨_, rfl⟩
  have hnone : reMatchComment prev ('+' :: (content ++ T)) = none := by
    by_cases hbol : prev = none ∨ prev = some '\n'
    · rw [reMatchComment_plus prev _ hbol]
      exact reFromIntroducer_begins _ (dropWhile_ordinary content T hnl hc hT)
    · simp [reMatchComment, reBol, hbol]
  have hin := findAllFrom_inside '+' content T (by decide) hnl hT2
  have hstep : findAllFrom prev 0 ('+' :: (content ++ T)) =
      findAllFrom (some '+') 0 (content ++ T) := by
    simp only [findAllFrom, hnone]
  rw [List.cons_append, hstep, hin]

theorem AddedLine.render_plus (l : AddedLine) : ∃ r, l.render = '+' :: r := by
  cases l with
  | marker m => exact ⟨_, rfl⟩
  | ordinary content => exact ⟨_, rfl⟩

theorem hunkBody_plus (final : Bool) (r : List Char) (ls : List (List Char)) :
    ∃ R, hunkBody final (('+' :: r) :: ls) = '+' :: R := by
  cases ls with
  | nil => cases final <;> simp [hunkBody]
  | cons l2 ls2 => simp [hunkBody]

theorem hunkBody_cons (final : Bool) (l : AddedLine) (ls : List AddedLine) :
    ∃ T, hunkBody final ((l :: ls).map AddedLine.render) = l.render ++ T ∧
      (T = [] ∨ T = ['\n'] ∨ ∃ R, T = '\n' :: '+' :: R) ∧
      findAllFrom (some '\n') 0 T.tail =
        findAllFrom (some '\n') 0 (hunkBody final (ls.map AddedLine.render)) := by
  cases ls with
  | nil =>
    cases final
    · exact ⟨[], by simp [hunkBody], Or.inl rfl, by simp [hunkBody]⟩
    · exact ⟨['\n'], by simp [hunkBody], Or.inr (Or.inl rfl), by simp [hunkBody]⟩
  | cons l2 ls2 =>
    obtain ⟨r, hr⟩ := l2.render_plus
    obtain ⟨R, hR⟩ := hunkBody_plus final r (ls2.map AddedLine.render)
    refine ⟨'\n' :: hunkBody final ((l2 :: ls2).map AddedLine.render), by simp [hunkBody],
      Or.inr (Or.inr ⟨R, ?_⟩), by simp⟩
    simp [hr, hR]

/-- The matches of a body of well-formed added lines are its marker lines. -/
theorem findAllFrom_lines (final : Bool) (ls : List AddedLine)
    (hls : ∀ l ∈ ls, l.wellFormed = true) (prev : Option Char)
    (hbol : prev = none ∨ prev = some '\n') :
    findAllFrom prev 0 (hunkBody final (ls.map AddedLine.render)) =
      ls.filterMap AddedLine.submatch := by
  induction ls generalizing prev with
  | nil => simp [hunkBody, findAllFrom]
  | cons l ls ih =>
    obtain ⟨T, hbody, hT, hrest⟩ := hunkBody_cons final l ls
    have hl : l.wellFormed = true := hls l (List.mem_cons_self _ _)
    have hih := ih (fun x hx => hls x (List.mem_cons_of_mem _ hx)) (some '\n') (Or.inr rfl)
    have hT2 : T = [] ∨ ∃ R, T = '\n' :: R := by
      rcases hT with rfl | rfl | ⟨R, rfl⟩
      · exact Or.inl rfl
      · exact Or.inr ⟨[], rfl⟩
      · exact Or.inr ⟨_, rfl⟩
    rw [hbody]
    cases l with
    | marker m =>
      have := findAllFrom_marker prev m T hbol hl hT2
      simp only [AddedLine.render]
      rw [this, hrest, hih]
      simp [AddedLine.submatch]
    | ordinary content =>
      have := findAllFrom_ordinary prev content T hl hT
      simp only [AddedLine.render]
      rw [this, hrest, hih]
      simp [AddedLine.submatch]

theorem filterMap_submatch_group1 (ls : List AddedLine) :
    (ls.filterMap AddedLine.submatch).map (fun l => l.group1) =
      ls.filterMap AddedLine.markerText := by
  induction ls with
  | nil => rfl
  | cons l ls ih =>
    cases l <;> simp [AddedLine.submatch, AddedLine.markerText, List.filterMap_cons, ih]

theorem filterMap_markerText_marker (l : List MarkerLine) :
    (l.map AddedLine.marker).filterMap AddedLine.markerText = l.map (fun m => m.text) := by
  induction l with
  | nil => rfl
  | cons a as ih => simp [List.filterMap_cons, AddedLine.markerText, ih]

theorem map_render_marker (l : List MarkerLine) :
    (l.map AddedLine.marker).map AddedLine.render = l.map MarkerLine.render := by
  simp [List.map_map, Function.comp_def, AddedLine.render]

/-! ## Joining and trimming -/

theorem stringsJoin_cons_cons (e e2 : List Char) (es : List (List Char)) (sep : List Char) :
    stringsJoin (e :: e2 :: es) sep = e ++ sep ++ stringsJoin (e2 :: es) sep := by
  simp [stringsJoin]

theorem dropWhile_head_id (p : Char → Bool) (s : List Char)
    (h : ∀ c, s.head? = some c → p c = false) : s.dropWhile p = s := by
  cases s with
  | nil => rfl
  | cons x xs =>
    have hx : p x = false := h x rfl
    simp [List.dropWhile, hx]

theorem stringsTrim_id (s cutset : List Char)
    (hh : ∀ c, s.head? = some c → c ∉ cutset)
    (hl : ∀ c, s.getLast? = some c → c ∉ cutset) : stringsTrim s cutset = s := by
  unfold stringsTrim
  rw [dropWhile_head_id _ s (fun c hc => by simpa using hh c hc)]
  rw [dropWhile_head_id _ s.reverse (fun c hc => by
    rw [List.head?_reverse] at hc
    simpa using hl c hc)]
  simp

theorem stringsJoin_ne_nil (t : List Char) (ts : List (List Char)) (sep : List Char)
    (ht : t ≠ []) : stringsJoin (t :: ts) sep ≠ [] := by
  cases ts with
  | nil => simpa [stringsJoin] using ht
  | cons t2 es => simp [stringsJoin_cons_cons, ht]

theorem stringsJoin_head (t : List Char) (ts : List (List Char)) (sep : List Char)
    (ht : t ≠ []) : (stringsJoin (t :: ts) sep).head? = t.head? := by
  cases t with
  | nil => exact absurd rfl ht
  | cons x xs => cases ts <;> simp [stringsJoin]

theorem stringsJoin_getLast (ts : List (List Char)) (sep : List Char)
    (hne : ∀ t ∈ ts, t ≠ []) (c : Char)
    (hc : (stringsJoin ts sep).getLast? = some c) : ∃ t ∈ ts, t.getLast? = some c := by
  induction ts with
  | nil => simp [stringsJoin] at hc
  | cons t ts ih =>
    cases ts with
    | nil => exact ⟨t, by simp, by simpa [stringsJoin] using hc⟩
    | cons t2 es =>
      have h2 : stringsJoin (t2 :: es) sep ≠ [] :=
        stringsJoin_ne_nil t2 es sep (hne t2 (by simp))
      rw [stringsJoin_cons_cons, List.getLast?_append_of_ne_nil _ h2] at hc
      obtain ⟨u, hu, hlast⟩ := ih (fun t ht => hne t (List.mem_cons_of_mem _ ht)) hc
      exact ⟨u, List.mem_cons_of_mem _ hu, hlast⟩

/-- Texts that are non-empty and neither begin nor end with a character of the
class `\s` are joined into a text that `strings.Trim(_, " \t")` leaves as is. -/
theorem stringsTrim_join (ts : List (List Char))
    (hts : ∀ t ∈ ts, t ≠ [] ∧ t.head?.any isSpaceClass = false ∧
      t.getLast?.any isSpaceClass = false) :
    stringsTrim (stringsJoin ts ['\n']) [' ', '\t'] = stringsJoin ts ['\n'] := by
  apply stringsTrim_id
  · intro c hc
    cases ts with
    | nil => simp [stringsJoin] at hc
    | cons t ts =>
      obtain ⟨hne, hhead, _⟩ := hts t (List.mem_cons_self _ _)
      rw [stringsJoin_head t ts _ hne] at hc
      simp only [hc, Option.any_some] at hhead
      intro hmem
      simp only [List.mem_cons, List.mem_singleton, List.not_mem_nil, or_false] at hmem
      rcases hmem with rfl | rfl <;> simp [isSpaceClass] at hhead
  · intro c hc
    obtain ⟨t, ht, hlast⟩ := stringsJoin_getLast ts _ (fun t ht => (hts t ht).1) c hc
    obtain ⟨_, _, hend⟩ := hts t ht
    simp only [hlast, Option.any_some] at hend
    intro hmem
    simp only [List.mem_cons, List.mem_singleton, List.not_mem_nil, or_false] at hmem
    rcases hmem with rfl | rfl <;> simp [isSpaceClass] at hend

theorem markerText_wellFormed (ls : List AddedLine) (hls : ∀ l ∈ ls, l.wellFormed = true) :
    ∀ t ∈ ls.filterMap AddedLine.markerText, t ≠ [] ∧ t.head?.any isSpaceClass = false ∧
      t.getLast?.any isSpaceClass = false := by
  intro t ht
  obtain ⟨l, hl, hlt⟩ := List.mem_filterMap.mp ht
  cases l with
  | ordinary content => simp [AddedLine.markerText] at hlt
  | marker m =>
    have hm := hls _ hl
    simp only [AddedLine.markerText, Option.some.injEq] at hlt
    subst hlt
    simp only [AddedLine.wellFormed, MarkerLine.wellFormed, Bool.and_eq_true,
      decide_eq_true_eq, Bool.not_eq_true', List.all_eq_true] at hm
    exact ⟨hm.2.1.1.1, hm.2.1.2, hm.2.2⟩

/-- On a body of well-formed added lines `parseHunkToText` gives the marker
texts joined with newlines. -/
theorem parseHunkToText_lines (final : Bool) (ls : List AddedLine)
    (hls : ∀ l ∈ ls, l.wellFormed = true) :
    parseHunkToText (hunkBody final (ls.map AddedLine.render)) =
      stringsJoin (ls.filterMap AddedLine.markerText) ['\n'] := by
  simp only [parseHunkToText, findAllSubmatch]
  rw [findAllFrom_lines final ls hls none (Or.inl rfl), filterMap_submatch_group1]
  exact stringsTrim_join _ (markerText_wellFormed ls hls)

/-! ## What a successful match looks like -/

theorem reGroupToEol_sound (r : List Char) (m : MatchEnds) (h : reGroupToEol r = some m) :
    ∃ cap E, r = cap ++ E ∧ m = ⟨r, E, E⟩ ∧ cap ≠ [] ∧ (∀ c ∈ cap, c ≠ '\n') ∧
      (E = [] ∨ ∃ R, E = '\n' :: R) := by
  cases r with
  | nil => simp [reGroupToEol, rePlus] at h
  | cons x xs =>
    by_cases hx : isDot x = true
    · simp only [reGroupToEol, rePlus, hx, if_true] at h
      obtain ⟨w, E, hxs, hw, hk⟩ := reStar_sound isDot _ xs m h
      have hE : (E = [] ∨ ∃ R, E = '\n' :: R) ∧ m = ⟨x :: xs, E, E⟩ := by
        cases E with
        | nil =>
          simp only [reEol, Option.some.injEq] at hk
          exact ⟨Or.inl rfl, hk.symm⟩
        | cons e es =>
          by_cases he : e = '\n'
          · subst he
            simp only [reEol, if_true, Option.some.injEq] at hk
            exact ⟨Or.inr ⟨es, rfl⟩, hk.symm⟩
          · simp [reEol, he] at hk
      refine ⟨x :: w, E, by simp [hxs], hE.2, by simp, ?_, hE.1⟩
      intro c hc
      rcases List.mem_cons.mp hc with rfl | hc
      · simpa [isDot] using hx
      · simpa [isDot] using hw c hc
    · simp [reGroupToEol, rePlus, hx] at h

theorem reGroupToEol_some (y : Char) (ys : List Char) (hy : y ≠ '\n') :
    ∃ m, reGroupToEol (y :: ys) = some m := by
  have hsplit : y :: ys = (y :: ys).takeWhile isDot ++ (y :: ys).dropWhile isDot :=
    (List.takeWhile_append_dropWhile _ _).symm
  have hT : (y :: ys).dropWhile isDot = [] ∨ ∃ R, (y :: ys).dropWhile isDot = '\n' :: R := by
    cases hd : (y :: ys).dropWhile isDot with
    | nil => exact Or.inl rfl
    | cons e es =>
      have := List.head_dropWhile_not isDot (y :: ys) (by simp [hd])
      simp only [hd, List.head_cons, isDot, bne_iff_ne, ne_eq, Bool.not_eq_true,
        decide_eq_false_iff_not, Decidable.not_not] at this
      have he : e = '\n' := by simpa [isDot] using this
      exact Or.inr ⟨es, by rw [he]⟩
  have hne : (y :: ys).takeWhile isDot ≠ [] := by
    have : isDot y = true := by simpa [isDot] using hy
    simp [List.takeWhile, this]
  have hnl : ∀ c ∈ (y :: ys).takeWhile isDot, c ≠ '\n' := by
    intro c hc
    have := List.mem_takeWhile_imp hc
    simpa [isDot] using this
  have := reGroupToEol_line _ _ hne hnl hT
  rw [← hsplit] at this
  exact ⟨_, this⟩

theorem reStar_group_none (xs : List Char)
    (h : reStar isSpaceClass reGroupToEol xs = none) : ∀ c ∈ xs, isSpaceClass c = true := by
  induction xs with
  | nil => simp
  | cons y ys ih =>
    by_cases hy : isSpaceClass y = true
    · simp only [reStar, hy, if_true] at h
      cases hrec : reStar isSpaceClass reGroupToEol ys with
      | some r => rw [hrec] at h; simp at h
      | none =>
        intro c hc
        rcases List.mem_cons.mp hc with rfl | hc
        · exact hy
        · exact ih hrec c hc
    · simp only [reStar, hy] at h
      have hnl : y ≠ '\n' := by
        intro hcontra
        subst hcontra
        exact hy (by decide)
      obtain ⟨m, hm⟩ := reGroupToEol_some y ys hnl
      simp [hm] at h

theorem reStar_group_sound (xs : List Char) (m : MatchEnds)
    (h : reStar isSpaceClass reGroupToEol xs = some m) :
    ∃ g cap E, xs = g ++ (cap ++ E) ∧ (∀ c ∈ g, isSpaceClass c = true) ∧
      m = ⟨cap ++ E, E, E⟩ ∧ cap ≠ [] ∧ (∀ c ∈ cap, c ≠ '\n') ∧
      (E = [] ∨ ∃ R, E = '\n' :: R) ∧
      (cap.head?.any isSpaceClass = false ∨ ∀ c ∈ cap ++ E, isSpaceClass c = true) := by
  induction xs with
  | nil => simp [reStar, reGroupToEol, rePlus] at h
  | cons y ys ih =>
    by_cases hy : isSpaceClass y = true
    · simp only [reStar, hy, if_true] at h
      cases hrec : reStar isSpaceClass reGroupToEol ys with
      | some r =>
        rw [hrec] at h
        have hr : r = m := by simpa using h
        subst hr
        obtain ⟨g, cap, E, hys, hg, hm, hne, hnl, hE, hhead⟩ := ih hrec
        refine ⟨y :: g, cap, E, by simp [hys], ?_, hm, hne, hnl, hE, hhead⟩
        intro c hc
        rcases List.mem_cons.mp hc with rfl | hc
        · exact hy
        · exact hg c hc
      | none =>
        rw [hrec] at h
        have hall := reStar_group_none ys hrec
        obtain ⟨cap, E, hsplit, hm, hne, hnl, hE⟩ := reGroupToEol_sound _ m h
        refine ⟨[], cap, E, by simpa using hsplit, by simp, by rw [hm, hsplit], hne, hnl, hE,
          Or.inr ?_⟩
        rw [← hsplit]
        intro c hc
        rcases List.mem_cons.mp hc with rfl | hc
        · exact hy
        · exact hall c hc
    · simp only [reStar, hy] at h
      obtain ⟨cap, E, hsplit, hm, hne, hnl, hE⟩ := reGroupToEol_sound _ m h
      refine ⟨[], cap, E, by simpa using hsplit, by simp, by rw [hm, hsplit], hne, hnl, hE,
        Or.inl ?_⟩
      cases cap with
      | nil => exact absurd rfl hne
      | cons c cs =>
        have : c = y := by
          have := congrArg List.head? hsplit
          simpa using this.symm
        subst this
        simpa using hy

theorem reFromIntroducer_sound (r : List Char) (m : MatchEnds)
    (h : reFromIntroducer r = some m) :
    ∃ i r2, r = Introducer.text i ++ r2 ∧ rePlus isSpaceClass reGroupToEol r2 = some m := by
  unfold reFromIntroducer reAlt at h
  beta_reduce at h
  have hsl : ∀ r0 : List Char, ∀ m0 : MatchEnds,
      reLit '/' (reLit '/' (reLit '%' (rePlus isSpaceClass reGroupToEol))) r0 = some m0 →
      ∃ r2, r0 = '/' :: '/' :: '%' :: r2 ∧ rePlus isSpaceClass reGroupToEol r2 = some m0 := by
    intro r0 m0 h0
    match r0, h0 with
    | a :: b :: c :: r2, h0 =>
      by_cases ha : a = '/' <;> by_cases hb : b = '/' <;> by_cases hc : c = '%' <;>
        simp_all [reLit]
    | [a, b], h0 =>
      by_cases ha : a = '/' <;> by_cases hb : b = '/' <;> simp_all [reLit]
    | [a], h0 => by_cases ha : a = '/' <;> simp_all [reLit]
    | [], h0 => simp [reLit] at h0
  have hha : ∀ r0 : List Char, ∀ m0 : MatchEnds,
      reLit '#' (reLit '%' (rePlus isSpaceClass reGroupToEol)) r0 = some m0 →
      ∃ r2, r0 = '#' :: '%' :: r2 ∧ rePlus isSpaceClass reGroupToEol r2 = some m0 := by
    intro r0 m0 h0
    match r0, h0 with
    | a :: b :: r2, h0 =>
      by_cases ha : a = '#' <;> by_cases hb : b = '%' <;> simp_all [reLit]
    | [a], h0 => by_cases ha : a = '#' <;> simp_all [reLit]
    | [], h0 => simp [reLit] at h0
  cases hfirst : reLit '/' (reLit '/' (reLit '%' (rePlus isSpaceClass reGroupToEol))) r with
  | some m1 =>
    rw [hfirst] at h
    have hm1 : m1 = m := by simpa using h
    subst hm1
    obtain ⟨r2, hr, hp⟩ := hsl r m1 hfirst
    exact ⟨Introducer.slashes, r2, by simpa [Introducer.text] using hr, hp⟩
  | none =>
    rw [hfirst] at h
    obtain ⟨r2, hr, hp⟩ := hha r m h
    exact ⟨Introducer.hash, r2, by simpa [Introducer.text] using hr, hp⟩

/-- Shape of the text on which the pattern matches, and of the match. -/
theorem reMatchComment_sound (prev : Option Char) (s : List Char) (m : MatchEnds)
    (h : reMatchComment prev s = some m) :
    (prev = none ∨ prev = some '\n') ∧
    ∃ w i g cap E, s = '+' :: (w ++ (Introducer.text i ++ (g ++ (cap ++ E)))) ∧
      (∀ c ∈ w, isSpaceClass c = true) ∧ g ≠ [] ∧ (∀ c ∈ g, isSpaceClass c = true) ∧
      m = ⟨cap ++ E, E, E⟩ ∧ cap ≠ [] ∧ (∀ c ∈ cap, c ≠ '\n') ∧
      (E = [] ∨ ∃ R, E = '\n' :: R) ∧
      (cap.head?.any isSpaceClass = false ∨ ∀ c ∈ cap ++ E, isSpaceClass c = true) := by
  by_cases hbol : prev = none ∨ prev = some '\n'
  · refine ⟨hbol, ?_⟩
    cases s with
    | nil => simp [reMatchComment_nil] at h
    | cons c cs =>
      by_cases hc : c = '+'
      · subst hc
        simp only [reMatchComment, reBol, hbol, if_true, reLit] at h
        obtain ⟨w, rest, hcs, hw, hk⟩ := reStar_sound isSpaceClass _ cs m h
        obtain ⟨i, r2, hrest, hplus⟩ := reFromIntroducer_sound rest m hk
        cases r2 with
        | nil => simp [rePlus] at hplus
        | cons x xs =>
          by_cases hx : isSpaceClass x = true
          · simp only [rePlus, hx, if_true] at hplus
            obtain ⟨g, cap, E, hxs, hg, hm, hne, hnl, hE, hhead⟩ :=
              reStar_group_sound xs m hplus
            refine ⟨w, i, x :: g, cap, E, by simp [hcs, hrest, hxs], hw, by simp, ?_, hm, hne,
              hnl, hE, hhead⟩
            intro c hc
            rcases List.mem_cons.mp hc with rfl | hc
            · exact hx
            · exact hg c hc
          · simp [rePlus, hx] at hplus
      · simp [reMatchComment_not_plus prev c cs hc] at h
  · simp [reMatchComment, reBol, hbol] at h

/-! ## Bodies without a match -/

theorem reFromIntroducer_text (i : Introducer) (r : List Char) :
    reFromIntroducer (i.text ++ r) = rePlus isSpaceClass reGroupToEol r := by
  cases i
  · simp only [Introducer.text, reFromIntroducer, reAlt, List.cons_append, List.nil_append,
      reLit, if_true]
    cases rePlus isSpaceClass reGroupToEol r <;> simp
  · simp [Introducer.text, reFromIntroducer, reAlt, reLit]

theorem hunkStep_skip {σ : Type} (T : Tools σ) (revisionID : String) (d : FileDiff)
    (w : World σ) (h : Hunk) (hb : stringsTrimSpace (parseHunkToText h.Body) = []) :
    hunkStep T revisionID d w h = w := by
  simp [hunkStep, hb]

theorem parseHunkToText_no_match (body : List Char) (h : findAllSubmatch body = []) :
    parseHunkToText body = [] := by
  simp [parseHunkToText, h, stringsJoin, stringsTrim]

theorem rePlus_group_no_gap (t T : List Char) (ht : t.head?.any isSpaceClass = false)
    (hT : T = [] ∨ T = ['\n']) : rePlus isSpaceClass reGroupToEol (t ++ T) = none := by
  cases t with
  | nil =>
    rcases hT with rfl | rfl
    · simp [rePlus]
    · simp [rePlus, isSpaceClass, reStar, reGroupToEol]
  | cons x xs =>
    have hx : isSpaceClass x = false := by simpa using ht
    simp [rePlus, hx]

theorem findAllFrom_no_gap (w : List Char) (i : Introducer) (t T : List Char)
    (hw : blankRun w = true) (hnl : ∀ c ∈ t, c ≠ '\n')
    (ht : t.head?.any isSpaceClass = false) (hT : T = [] ∨ T = ['\n']) :
    findAllFrom none 0 ('+' :: (w ++ (i.text ++ t)) ++ T) = [] := by
  have hdrop : (w ++ (i.text ++ (t ++ T))).dropWhile isSpaceClass = i.text ++ (t ++ T) :=
    dropWhile_run_append isSpaceClass _ _ (blankRun_space _ hw)
      (Introducer.head_not_space _ _)
  have hnone : reMatchComment none ('+' :: (w ++ (i.text ++ (t ++ T)))) = none := by
    rw [reMatchComment_plus none _ (Or.inl rfl), hdrop, reFromIntroducer_text]
    exact rePlus_group_no_gap t T ht hT
  have hinner : ∀ c ∈ w ++ (i.text ++ t), c ≠ '\n' := by
    intro c hc
    rcases List.mem_append.mp hc with hc | hc
    · have := (List.all_eq_true.mp hw) c hc
      simp only [Bool.or_eq_true, decide_eq_true_eq] at this
      rcases this with rfl | rfl <;> decide
    · rcases List.mem_append.mp hc with hc | hc
      · cases i <;> simp only [Introducer.text, List.mem_cons, List.mem_singleton,
          List.not_mem_nil, or_false] at hc
        · rcases hc with rfl | rfl | rfl <;> decide
        · rcases hc with rfl | rfl <;> decide
      · exact hnl c hc
  have hT2 : T = [] ∨ ∃ R, T = '\n' :: R := by
    rcases hT with rfl | rfl
    · exact Or.inl rfl
    · exact Or.inr ⟨[], rfl⟩
  have hin := findAllFrom_inside '+' (w ++ (i.text ++ t)) T (by decide) hinner hT2
  have htail : findAllFrom (some '\n') 0 T.tail = [] := by
    rcases hT with rfl | rfl <;> simp [findAllFrom]
  have hstep : findAllFrom none 0 ('+' :: ((w ++ (i.text ++ t)) ++ T)) =
      findAllFrom (some '+') 0 ((w ++ (i.text ++ t)) ++ T) := by
    have hnone2 : reMatchComment none ('+' :: ((w ++ (i.text ++ t)) ++ T)) = none := by
      simpa [List.append_assoc] using hnone
    simp only [findAllFrom, hnone2]
  rw [List.cons_append, hstep, hin, htail]

theorem linesOf_ne_nil (s : List Char) : linesOf s ≠ [] := by
  induction s with
  | nil => simp [linesOf]
  | cons c cs ih =>
    by_cases hc : c = '\n'
    · simp [linesOf, hc]
    · simp only [linesOf, hc, if_false]
      cases linesOf cs <;> simp

theorem findAllFrom_no_plus (s : List Char) (prev : Option Char)
    (hfirst : (prev = none ∨ prev = some '\n') → s.head? ≠ some '+')
    (hrest : ∀ l ∈ (linesOf s).tail, l.head? ≠ some '+') :
    findAllFrom prev 0 s = [] := by
  induction s generalizing prev with
  | nil => simp [findAllFrom]
  | cons c cs ih =>
    have hnone : reMatchComment prev (c :: cs) = none := by
      by_cases hbol : prev = none ∨ prev = some '\n'
      · have hc : c ≠ '+' := by
          intro hcontra
          exact hfirst hbol (by simp [hcontra])
        exact reMatchComment_not_plus prev c cs hc
      · simp [reMatchComment, reBol, hbol]
    have hstep : findAllFrom prev 0 (c :: cs) = findAllFrom (some c) 0 cs := by
      simp only [findAllFrom, hnone]
    rw [hstep]
    by_cases hc : c = '\n'
    · subst hc
      have hlines : ∀ l ∈ linesOf cs, l.head? ≠ some '+' := by
        intro l hl
        exact hrest l (by simpa [linesOf] using hl)
      apply ih
      · intro _
        cases cs with
        | nil => simp
        | cons x xs =>
          intro hx
          have hx2 : x = '+' := by simpa using hx
          subst hx2
          have hxn : ('+' : Char) ≠ '\n' := by decide
          cases hxs : linesOf xs with
          | nil => exact linesOf_ne_nil xs hxs
          | cons l ls =>
            have := hlines ('+' :: l) (by simp [linesOf, hxn, hxs])
            simp at this
      · intro l hl
        exact hlines l (List.mem_of_mem_tail hl)
    · apply ih
      · intro hbol
        simp [hc] at hbol
      · intro l hl
        apply hrest l
        simp only [linesOf, hc, if_false]
        cases hcs : linesOf cs with
        | nil => exact absurd hcs (linesOf_ne_nil cs)
        | cons l0 ls =>
          rw [hcs] at hl
          simpa using hl

/-! ## Blank texts -/

theorem stringsTrimSpace_nil_of_all (s : List Char)
    (h : ∀ c ∈ s, unicodeIsSpace c = true) : stringsTrimSpace s = [] := by
  have : s.dropWhile unicodeIsSpace = [] := List.dropWhile_eq_nil_iff.mpr h
  simp [stringsTrimSpace, this]

theorem all_of_stringsTrimSpace_nil (s : List Char) (h : stringsTrimSpace s = []) :
    ∀ c ∈ s, unicodeIsSpace c = true := by
  have h1 : (s.dropWhile unicodeIsSpace).reverse.dropWhile unicodeIsSpace = [] := by
    simpa [stringsTrimSpace] using h
  have h2 : ∀ c ∈ s.dropWhile unicodeIsSpace, unicodeIsSpace c = true := by
    intro c hc
    exact List.dropWhile_eq_nil_iff.mp h1 c (List.mem_reverse.mpr hc)
  have h3 : s.dropWhile unicodeIsSpace = [] := by
    cases hd : s.dropWhile unicodeIsSpace with
    | nil => rfl
    | cons x xs =>
      have hne : s.dropWhile unicodeIsSpace ≠ [] := by simp [hd]
      have hx := List.head_dropWhile_not unicodeIsSpace s hne
      have hx2 := h2 ((s.dropWhile unicodeIsSpace).head hne) (List.head_mem hne)
      rw [hx2] at hx
      exact absurd hx (by simp)
  exact List.dropWhile_eq_nil_iff.mp h3

theorem mem_stringsJoin (ts : List (List Char)) (sep : List Char) (c : Char)
    (hc : c ∈ stringsJoin ts sep) : c ∈ sep ∨ ∃ t ∈ ts, c ∈ t := by
  induction ts with
  | nil => simp [stringsJoin] at hc
  | cons t ts ih =>
    cases ts with
    | nil => exact Or.inr ⟨t, by simp, by simpa [stringsJoin] using hc⟩
    | cons t2 es =>
      rw [stringsJoin_cons_cons] at hc
      rcases List.mem_append.mp hc with h | h
      · rcases List.mem_append.mp h with h | h
        · exact Or.inr ⟨t, by simp, h⟩
        · exact Or.inl h
      · rcases ih h with h | ⟨u, hu, hcu⟩
        · exact Or.inl h
        · exact Or.inr ⟨u, List.mem_cons_of_mem _ hu, hcu⟩

theorem mem_stringsTrim (s cutset : List Char) (c : Char)
    (hc : c ∈ stringsTrim s cutset) : c ∈ s := by
  unfold stringsTrim at hc
  have h1 := List.mem_reverse.mp hc
  have h2 := (List.dropWhile_sublist _).subset h1
  have h3 := List.mem_reverse.mp h2
  exact (List.dropWhile_sublist _).subset h3

theorem isSpaceClass_unicode (c : Char) (h : isSpaceClass c = true) :
    unicodeIsSpace c = true := by
  rcases isSpaceClass_cases c h with rfl | rfl | rfl | rfl | rfl <;> decide

/-- When every captured text is blank, so is the result of `parseHunkToText`. -/
theorem parseHunkToText_blank (body : List Char)
    (h : ∀ m ∈ findAllSubmatch body, stringsTrimSpace m.group1 = []) :
    stringsTrimSpace (parseHunkToText body) = [] := by
  apply stringsTrimSpace_nil_of_all
  intro c hc
  have hjoin := mem_stringsTrim _ _ c hc
  rcases mem_stringsJoin _ _ c hjoin with hsep | ⟨t, ht, hct⟩
  · have : c = '\n' := by simpa using hsep
    subst this
    decide
  · obtain ⟨m, hm, rfl⟩ := List.mem_map.mp ht
    exact all_of_stringsTrimSpace_nil _ (h m hm) c hct

/-! ## Bodies without an introducer -/

theorem isPrefixOf_append_self (pat rest : List Char) :
    pat.isPrefixOf (pat ++ rest) = true := by
  induction pat with
  | nil => simp [List.isPrefixOf]
  | cons x xs ih => simp [List.isPrefixOf, ih]

theorem containsText_append (pat pre rest : List Char) (hpat : pat ≠ []) :
    containsText pat (pre ++ (pat ++ rest)) = true := by
  induction pre with
  | nil =>
    cases pat with
    | nil => exact absurd rfl hpat
    | cons x xs =>
      have := isPrefixOf_append_self (x :: xs) rest
      simp only [List.nil_append, List.cons_append, containsText, Bool.or_eq_true]
      exact Or.inl this
  | cons x xs ih => simp [containsText, ih]

theorem containsText_tail (pat : List Char) (c : Char) (cs : List Char)
    (h : containsText pat (c :: cs) = false) : containsText pat cs = false := by
  simp only [containsText, Bool.or_eq_false_iff] at h
  exact h.2

theorem reMatchComment_contains (prev : Option Char) (s : List Char) (m : MatchEnds)
    (h : reMatchComment prev s = some m) :
    containsText ['/', '/', '%'] s = true ∨ containsText ['#', '%'] s = true := by
  obtain ⟨_, w, i, g, cap, E, hs, _⟩ := reMatchComment_sound prev s m h
  have := containsText_append i.text ('+' :: w) (g ++ (cap ++ E)) (by cases i <;> simp [Introducer.text])
  rw [List.cons_append, ← hs] at this
  cases i
  · exact Or.inl this
  · exact Or.inr this

/-- A body that contains neither `//%` nor `#%` has no match. -/
theorem findAllFrom_no_introducer (s : List Char) (prev : Option Char) (skip : Nat)
    (h1 : containsText ['/', '/', '%'] s = false) (h2 : containsText ['#', '%'] s = false) :
    findAllFrom prev skip s = [] := by
  induction s generalizing prev skip with
  | nil => simp [findAllFrom]
  | cons c cs ih =>
    have ih2 := fun p k => ih p k (containsText_tail _ c cs h1) (containsText_tail _ c cs h2)
    cases skip with
    | succ k => simp only [findAllFrom, ih2]
    | zero =>
      cases hm : reMatchComment prev (c :: cs) with
      | some m =>
        rcases reMatchComment_contains prev _ m hm with h | h
        · rw [h1] at h; exact absurd h (by simp)
        · rw [h2] at h; exact absurd h (by simp)
      | none => simp only [findAllFrom, hm, ih2]

/-! ## The ends of a trimmed text -/

theorem dropWhile_head_not (p : Char → Bool) (s : List Char) (c : Char)
    (h : (s.dropWhile p).head? = some c) : p c = false := by
  have := List.head?_dropWhile_not p s
  rw [h] at this
  exact this

theorem getLast?_suffix (b l : List Char) (hs : b <:+ l) (hb : b ≠ []) :
    b.getLast? = l.getLast? := by
  obtain ⟨t, rfl⟩ := hs
  rw [List.getLast?_append_of_ne_nil _ hb]

theorem stringsTrim_getLast (s cutset : List Char) (c : Char)
    (h : (stringsTrim s cutset).getLast? = some c) : c ∉ cutset := by
  unfold stringsTrim at h
  rw [List.getLast?_reverse] at h
  simpa using dropWhile_head_not _ _ c h

theorem stringsTrim_keeps_head (s cutset : List Char) (x : Char)
    (hx : s.head? = some x) (hcut : x ∉ cutset) : (stringsTrim s cutset).head? = some x := by
  unfold stringsTrim
  rw [dropWhile_head_id _ s (fun c hc => by
    rw [hx] at hc
    have : c = x := by simpa using hc.symm
    subst this
    simpa using hcut)]
  rw [List.head?_reverse]
  have hmem : x ∈ s.reverse := by
    cases s with
    | nil => simp at hx
    | cons y ys =>
      have : y = x := by simpa using hx
      simp [this]
  have hne : s.reverse.dropWhile (fun c => decide (c ∈ cutset)) ≠ [] := by
    intro hnil
    have := List.dropWhile_eq_nil_iff.mp hnil x hmem
    simp only [decide_eq_true_eq] at this
    exact hcut this
  rw [getLast?_suffix _ _ (List.dropWhile_suffix _) hne, List.getLast?_reverse, hx]

/-! ## The first match of a scan -/

theorem findAllFrom_all_space (s : List Char) (prev : Option Char) (skip : Nat)
    (hs : ∀ c ∈ s, isSpaceClass c = true) : findAllFrom prev skip s = [] := by
  induction s generalizing prev skip with
  | nil => simp [findAllFrom]
  | cons c cs ih =>
    have ih2 := fun p k => ih p k (fun x hx => hs x (List.mem_cons_of_mem _ hx))
    have hc : c ≠ '+' := by
      intro hcontra
      have := hs c (List.mem_cons_self _ _)
      rw [hcontra] at this
      exact absurd this (by decide)
    cases skip with
    | succ k => simp only [findAllFrom, ih2]
    | zero => simp only [findAllFrom, reMatchComment_not_plus prev c cs hc, ih2]

/-- The first captured text of a scan is non-empty; it begins with a character
outside the class `\s`, or it is made of such whitespace only and is the only
captured text. -/
theorem findAllFrom_first (s : List Char) (prev : Option Char) (sub : Submatch)
    (rest : List Submatch) (h : findAllFrom prev 0 s = sub :: rest) :
    sub.group1 ≠ [] ∧
      (sub.group1.head?.any isSpaceClass = false ∨
        (rest = [] ∧ ∀ c ∈ sub.group1, isSpaceClass c = true)) := by
  induction s generalizing prev with
  | nil => simp [findAllFrom] at h
  | cons c cs ih =>
    cases hm : reMatchComment prev (c :: cs) with
    | none =>
      have hstep : findAllFrom prev 0 (c :: cs) = findAllFrom (some c) 0 cs := by
        simp only [findAllFrom, hm]
      rw [hstep] at h
      exact ih (some c) h
    | some m =>
      obtain ⟨_, w, i, g, cap, E, hs, _, _, _, hmatch, hne, _, _, hhead⟩ :=
        reMatchComment_sound prev _ m hm
      have hs2 : c :: cs = '+' :: (w ++ (Introducer.text i ++ (g ++ cap))) ++ E := by
        simp [hs]
      rw [hs2] at hm h
      have hscan := findAllFrom_match prev '+' _ E m hm (by rw [hmatch])
      rw [hscan] at h
      have hsub : (submatchOf ('+' :: (w ++ (Introducer.text i ++ (g ++ cap))) ++ E) m).group1
          = cap := by
        rw [hmatch]
        simp [submatchOf, textBetween_append]
      have h1 := (List.cons.inj h).1
      have h2 := (List.cons.inj h).2
      rw [← h1, hsub]
      refine ⟨hne, ?_⟩
      rcases hhead with hh | hall
      · exact Or.inl hh
      · refine Or.inr ⟨?_, fun x hx => hall x (List.mem_append_left _ hx)⟩
        rw [← h2]
        exact findAllFrom_all_space E _ 0 (fun x hx => hall x (List.mem_append_right _ hx))

/-! ## The loop of `main` -/

theorem submissions_append (a b : List Event) :
    submissions (a ++ b) = submissions a ++ submissions b := by
  simp [submissions]

theorem createInlineDiff_submissions {σ : Type} (T : Tools σ) (revision filePath : String)
    (lineNumber : Int) (content : List Char) (w : World σ) :
    submissions (createInlineDiff T revision filePath lineNumber content w).2.trace =
      submissions w.trace ++ [⟨revision, filePath, 1, lineNumber, content⟩] := by
  unfold createInlineDiff
  rcases hcall : T.callConduit w.tools ⟨revision, filePath, 1, lineNumber, content⟩ with
    ⟨reply, st⟩
  cases reply with
  | execFailed => simp [hcall, submissions]
  | badOutput => simp [hcall, submissions]
  | response error errorMessage =>
    by_cases herr : error = ""
    · simp [hcall, herr, submissions]
    · simp [hcall, herr, submissions]

theorem hunkStep_submissions {σ : Type} (T : Tools σ) (revisionID : String) (d : FileDiff)
    (w : World σ) (h : Hunk) :
    submissions (hunkStep T revisionID d w h).trace =
      submissions w.trace ++
        (if producesComment h = true then [commentOf revisionID d h] else []) := by
  by_cases hb : stringsTrimSpace (parseHunkToText h.Body) = []
  · simp [hunkStep, hb, producesComment]
  · have hsub := createInlineDiff_submissions T revisionID d.OrigName
      (wrapInt32 (h.OrigStartLine + 1)) (parseHunkToText h.Body)
      { w with trace := w.trace ++
          [Event.logComment d.OrigName (wrapInt32 (h.OrigStartLine + 1))
            (parseHunkToText h.Body)] }
    simp only [hunkStep, hb, if_false, producesComment]
    rcases hres : createInlineDiff T revisionID d.OrigName (wrapInt32 (h.OrigStartLine + 1))
      (parseHunkToText h.Body)
      { w with trace := w.trace ++
          [Event.logComment d.OrigName (wrapInt32 (h.OrigStartLine + 1))
            (parseHunkToText h.Body)] } with ⟨err, w2⟩
    rw [hres] at hsub
    simp only [submissions_append] at hsub
    cases err
    · simpa [commentOf, submissions, hb] using hsub
    · simpa [commentOf, submissions, submissions_append, hb] using hsub

theorem hunks_submissions {σ : Type} (T : Tools σ) (revisionID : String) (d : FileDiff)
    (hs : List Hunk) (w : World σ) :
    submissions (hs.foldl (hunkStep T revisionID d) w).trace =
      submissions w.trace ++
        (hs.filter (fun h => producesComment h)).map (commentOf revisionID d) := by
  induction hs generalizing w with
  | nil => simp
  | cons h hs ih =>
    rw [List.foldl_cons, ih, hunkStep_submissions]
    by_cases hp : producesComment h = true
    · simp [hp, List.filter_cons]
    · simp [hp, List.filter_cons]

theorem mainLoop_submissions {σ : Type} (T : Tools σ) (revisionID : String)
    (p : List FileDiff) (w : World σ) :
    submissions (mainLoop T revisionID p w).trace =
      submissions w.trace ++
        p.flatMap (fun d =>
          (d.Hunks.filter (fun h => producesComment h)).map (commentOf revisionID d)) := by
  unfold mainLoop
  induction p generalizing w with
  | nil => simp
  | cons d p ih =>
    rw [List.foldl_cons, ih, hunks_submissions]
    simp [List.flatMap_cons, List.append_assoc]

theorem main_trace {σ : Type} (T : Tools σ) (revisionID : String) (p : List FileDiff)
    (w : World σ) :
    ∃ post, (main T revisionID p w).2.trace =
        (mainLoop T revisionID p w).trace ++ Event.browse "HEAD" :: post ∧
      submissions post = [] := by
  unfold main arcBrowse
  rcases hb : T.browse (mainLoop T revisionID p w).tools "HEAD" with ⟨ok, st⟩
  cases ok
  · exact ⟨[Event.logFatal], by simp [hb], by simp [submissions]⟩
  · exact ⟨[], by simp [hb], by simp [submissions]⟩

/-! ## The claims -/

/-- C1: a hunk body that is a sequence (empty or not) of well-formed marker
lines, separated by newlines (with or without a newline after the last one), is
turned by `parseHunkToText` into exactly the marker texts joined with newline
characters, in order; so the result is the same for any other choice of
introducers and indentation, and `+//% foo` then `+//% bar` gives `foo\nbar`. -/
theorem parseHunkToText_marker_lines (final : Bool) (ms : List MarkerLine)
    (hms : ∀ m ∈ ms, m.wellFormed = true) :
    parseHunkToText (hunkBody final (ms.map MarkerLine.render)) =
        stringsJoin (ms.map (fun m => m.text)) ['\n'] ∧
      (∀ (final2 : Bool) (ms2 : List MarkerLine), (∀ m ∈ ms2, m.wellFormed = true) →
        ms2.map (fun m => m.text) = ms.map (fun m => m.text) →
        parseHunkToText (hunkBody final2 (ms2.map MarkerLine.render)) =
          parseHunkToText (hunkBody final (ms.map MarkerLine.render))) ∧
      parseHunkToText "+//% foo\n+//% bar".toList = "foo\nbar".toList := by
  have key : ∀ (f : Bool) (l : List MarkerLine), (∀ m ∈ l, m.wellFormed = true) →
      parseHunkToText (hunkBody f (l.map MarkerLine.render)) =
        stringsJoin (l.map (fun m => m.text)) ['\n'] := by
    intro f l hl
    have h := parseHunkToText_lines f (l.map AddedLine.marker) (by
      intro a ha
      obtain ⟨m, hm, rfl⟩ := List.mem_map.mp ha
      exact hl m hm)
    rw [map_render_marker, filterMap_markerText_marker] at h
    exact h
  refine ⟨key final ms hms, ?_, by decide⟩
  intro final2 ms2 hms2 htexts
  rw [key final2 ms2 hms2, key final ms hms, htexts]

/-- Witness of C1: the theorem applied to `+//% foo` then `+ #%  bar`. -/
theorem parseHunkToText_marker_lines_witness :
    parseHunkToText "+//% foo\n+ #%  bar\n".toList = "foo\nbar".toList :=
  (parseHunkToText_marker_lines true
    [⟨[], Introducer.slashes, [' '], "foo".toList⟩,
     ⟨[' '], Introducer.hash, [' ', ' '], "bar".toList⟩]
    (by decide)).1

/-- C2: for every file `d` and every hunk `h` of it that produces a comment,
with an origin start line in the `int32` range and below its maximum, the loop
body submits exactly one comment, for the path of `d`, whose line number is the
origin start line plus one; any other body under the same hunk header that
produces a comment is submitted with the same line number.  A hunk with origin
start line 10 and body `+//% a`, `+//% b` gives line 11 and body `a\nb`. -/
theorem comment_line_number {σ : Type} (T : Tools σ) (revisionID : String) (d : FileDiff)
    (h : Hunk) (w : World σ) (hprod : producesComment h = true)
    (hlo : -2147483648 ≤ h.OrigStartLine) (hhi : h.OrigStartLine < 2147483647) :
    (∃ c, submissions (hunkStep T revisionID d w h).trace = submissions w.trace ++ [c] ∧
        c.LineNumber = h.OrigStartLine + 1 ∧ c.FilePath = d.OrigName ∧
        c.Content = parseHunkToText h.Body) ∧
      (∀ body2 : List Char, producesComment ⟨h.OrigStartLine, body2⟩ = true →
        ∃ c2, submissions (hunkStep T revisionID d w ⟨h.OrigStartLine, body2⟩).trace =
            submissions w.trace ++ [c2] ∧
          c2.LineNumber = h.OrigStartLine + 1) ∧
      submissions (hunkStep acceptingTools "42" ⟨"a.go", []⟩ ⟨(), []⟩
          ⟨10, "+//% a\n+//% b\n".toList⟩).trace =
        [⟨"42", "a.go", 1, 11, "a\nb".toList⟩] := by
  have hline : wrapInt32 (h.OrigStartLine + 1) = h.OrigStartLine + 1 := by
    unfold wrapInt32
    omega
  refine ⟨⟨commentOf revisionID d h, ?_, hline, rfl, rfl⟩, ?_, by decide⟩
  · rw [hunkStep_submissions, if_pos hprod]
  · intro body2 hprod2
    refine ⟨commentOf revisionID d ⟨h.OrigStartLine, body2⟩, ?_, hline⟩
    rw [hunkStep_submissions, if_pos hprod2]

/-- Witness of C2: the hunk with origin start line 10 and two marker lines. -/
theorem comment_line_number_witness :
    producesComment ⟨10, "+//% a\n+//% b\n".toList⟩ = true ∧
      ∃ c, submissions (hunkStep rejectingTools "42" ⟨"a.go", []⟩ ⟨(), []⟩
            ⟨10, "+//% a\n+//% b\n".toList⟩).trace = submissions [] ++ [c] ∧
        c.LineNumber = 10 + 1 ∧ c.FilePath = "a.go" ∧
        c.Content = parseHunkToText "+//% a\n+//% b\n".toList :=
  ⟨by decide,
    (comment_line_number rejectingTools "42" ⟨"a.go", []⟩ ⟨10, "+//% a\n+//% b\n".toList⟩
      ⟨(), []⟩ (by decide) (by decide) (by decide)).1⟩

/-- C3: the comments submitted by the loop of `main` on a parsed diff, started
with an empty trace, are exactly one comment for each hunk whose extracted text
is not blank and none for any other hunk, in the order of the files and then of
the hunks, each with the original path of the file that owns its hunk.  The
diff `twoFileDiff` yields exactly one comment, attributed to its first file. -/
theorem submitted_comments {σ : Type} (T : Tools σ) (revisionID : String)
    (p : List FileDiff) (st : σ) :
    submissions (mainLoop T revisionID p ⟨st, []⟩).trace =
        p.flatMap (fun d =>
          (d.Hunks.filter (fun h => decide (stringsTrimSpace (parseHunkToText h.Body) ≠ []))).map
            (fun h => ⟨revisionID, d.OrigName, 1, wrapInt32 (h.OrigStartLine + 1),
              parseHunkToText h.Body⟩)) ∧
      submissions (mainLoop T revisionID twoFileDiff ⟨st, []⟩).trace =
        [⟨revisionID, "a.go", 1, 11, "foo\nbar".toList⟩] := by
  have hgen : ∀ q : List FileDiff, submissions (mainLoop T revisionID q ⟨st, []⟩).trace =
      q.flatMap (fun d =>
        (d.Hunks.filter (fun h => decide (stringsTrimSpace (parseHunkToText h.Body) ≠ []))).map
          (fun h => ⟨revisionID, d.OrigName, 1, wrapInt32 (h.OrigStartLine + 1),
            parseHunkToText h.Body⟩)) := by
    intro q
    rw [mainLoop_submissions]
    simp only [submissions, List.filterMap_nil, List.nil_append]
    rfl
  refine ⟨hgen p, ?_⟩
  rw [hgen twoFileDiff]
  rfl

/-- C4 fails on the code, by the slip of C7: the class `\s+` of `reMatchComment`
also matches `\n`.  Each of the two added lines `+//%` followed by two spaces,
taken alone (with or without its newline), matches and captures one space, so
every matched line captures only whitespace.  On the body made of both lines
the only match starts at the first `+`, runs over the line end and captures the
raw second line; `parseHunkToText` returns `+//%`, which is not blank, and the
loop of `main` submits it as a comment. -/
theorem blank_marker_lines_emit_comment :
    findAllSubmatch "+//%  ".toList = [⟨"+//%  ".toList, " ".toList⟩] ∧
      findAllSubmatch "+//%  \n".toList = [⟨"+//%  ".toList, " ".toList⟩] ∧
      stringsTrimSpace " ".toList = [] ∧
      findAllSubmatch "+//%  \n+//%  \n".toList =
        [⟨"+//%  \n+//%  ".toList, "+//%  ".toList⟩] ∧
      parseHunkToText "+//%  \n+//%  \n".toList = "+//%".toList ∧
      stringsTrimSpace (parseHunkToText "+//%  \n+//%  \n".toList) ≠ [] ∧
      submissions (hunkStep acceptingTools "42" ⟨"a.go", []⟩ ⟨(), []⟩
          ⟨10, "+//%  \n+//%  \n".toList⟩).trace =
        [⟨"42", "a.go", 1, 11, "+//%".toList⟩] := by
  decide

/-- C5: an introducer that is not followed by whitespace does not match.  For a
run `w` of spaces and tabs, either introducer, and a text `t` without line
break that is empty or begins with a non-whitespace character, the body made of
the single line `+` `w` introducer `t` (with or without a final newline) has no
match, `parseHunkToText` gives the empty text, and the loop of `main` emits no
comment for the hunk; `+//%nospace` is such a body. -/
theorem introducer_without_gap_no_comment (final : Bool) (w : List Char) (i : Introducer)
    (t : List Char) (hw : blankRun w = true) (hnl : ∀ c ∈ t, c ≠ '\n')
    (ht : t.head?.any isSpaceClass = false) :
    findAllSubmatch (hunkBody final ['+' :: (w ++ (i.text ++ t))]) = [] ∧
      parseHunkToText (hunkBody final ['+' :: (w ++ (i.text ++ t))]) = [] ∧
      (∀ (σ : Type) (T : Tools σ) (revisionID : String) (d : FileDiff) (line : Int)
        (wd : World σ),
        hunkStep T revisionID d wd ⟨line, hunkBody final ['+' :: (w ++ (i.text ++ t))]⟩ = wd) ∧
      parseHunkToText "+//%nospace".toList = [] := by
  have hbody : ∃ T, (T = [] ∨ T = ['\n']) ∧
      hunkBody final ['+' :: (w ++ (i.text ++ t))] = '+' :: (w ++ (i.text ++ t)) ++ T := by
    cases final
    · exact ⟨[], Or.inl rfl, by simp [hunkBody]⟩
    · exact ⟨['\n'], Or.inr rfl, by simp [hunkBody]⟩
  obtain ⟨T, hT, hb⟩ := hbody
  have hnone : findAllSubmatch (hunkBody final ['+' :: (w ++ (i.text ++ t))]) = [] := by
    rw [hb]
    exact findAllFrom_no_gap w i t T hw hnl ht hT
  have hparse := parseHunkToText_no_match _ hnone
  refine ⟨hnone, hparse, ?_, by decide⟩
  intro σ T revisionID d line wd
  exact hunkStep_skip T revisionID d wd _ (by simp [hparse, stringsTrimSpace])

/-- Witness of C5: the single line `+ \t#%x y` with a final newline. -/
theorem introducer_without_gap_no_comment_witness :
    blankRun [' ', '\t'] = true ∧ parseHunkToText "+ \t#%x y\n".toList = [] :=
  ⟨by decide,
    (introducer_without_gap_no_comment true [' ', '\t'] Introducer.hash "x y".toList
      (by decide) (by decide) (by decide)).2.1⟩

/-- C6: on a hunk body made of added lines, each a well-formed marker line or
an ordinary added line (whose content, after its leading whitespace, does not
begin with an introducer), `parseHunkToText` returns the same text as on the
body with the ordinary lines removed, namely the marker texts joined with
newlines in order. -/
theorem parseHunkToText_ignores_ordinary (final final2 : Bool) (ls : List AddedLine)
    (hls : ∀ l ∈ ls, l.wellFormed = true) :
    parseHunkToText (hunkBody final (ls.map AddedLine.render)) =
        parseHunkToText
          (hunkBody final2 ((ls.filter AddedLine.isMarker).map AddedLine.render)) ∧
      parseHunkToText (hunkBody final (ls.map AddedLine.render)) =
        stringsJoin (ls.filterMap AddedLine.markerText) ['\n'] := by
  have hfilter : (ls.filter AddedLine.isMarker).filterMap AddedLine.markerText =
      ls.filterMap AddedLine.markerText := by
    clear hls
    induction ls with
    | nil => rfl
    | cons a as ih =>
      cases a <;>
        simp [List.filter_cons, List.filterMap_cons, AddedLine.isMarker,
          AddedLine.markerText, ih]
  have h1 := parseHunkToText_lines final ls hls
  have h2 := parseHunkToText_lines final2 (ls.filter AddedLine.isMarker)
    (fun l hl => hls l (List.mem_filter.mp hl).1)
  rw [hfilter] at h2
  exact ⟨h1.trans h2.symm, h1⟩

/-- Witness of C6: `+x := 1`, `+//% foo`, `+`, `+  #% bar`, `+y //% no`. -/
theorem parseHunkToText_ignores_ordinary_witness :
    parseHunkToText "+x := 1\n+//% foo\n+\n+  #% bar\n+y //% no\n".toList =
        parseHunkToText "+//% foo\n+  #% bar".toList ∧
      parseHunkToText "+x := 1\n+//% foo\n+\n+  #% bar\n+y //% no\n".toList =
        "foo\nbar".toList :=
  parseHunkToText_ignores_ordinary true false
    [AddedLine.ordinary "x := 1".toList,
     AddedLine.marker ⟨[], Introducer.slashes, [' '], "foo".toList⟩,
     AddedLine.ordinary [],
     AddedLine.marker ⟨[' ', ' '], Introducer.hash, [' '], "bar".toList⟩,
     AddedLine.ordinary "y //% no".toList]
    (by decide)

/-- C7 fails on the code: the classes `\s*` and `\s+` of `reMatchComment` also
match `\n`, so a match can run over a line boundary.  On the two added lines
`+//%` and `+//% foo` the only match starts at the first `+`, contains the
newline, and captures the raw second line `+//% foo`, which becomes the comment
body; a marker line without text between two marker lines with text swallows
the line after it in the same way. -/
theorem match_spans_line_boundary :
    findAllSubmatch "+//%\n+//% foo\n".toList =
        [⟨"+//%\n+//% foo".toList, "+//% foo".toList⟩] ∧
      '\n' ∈ "+//%\n+//% foo".toList ∧
      parseHunkToText "+//%\n+//% foo\n".toList = "+//% foo".toList ∧
      parseHunkToText "+//% first\n+//%\n+//% second\n".toList =
        "first\n+//% second".toList ∧
      submissions (hunkStep acceptingTools "42" ⟨"a.go", []⟩ ⟨(), []⟩
          ⟨10, "+//%\n+//% foo\n".toList⟩).trace =
        [⟨"42", "a.go", 1, 11, "+//% foo".toList⟩] := by
  decide

/-- C8: only addition lines can produce a comment.  On a hunk body in which no
line begins with `+` the pattern has no match, `parseHunkToText` returns the
empty text and the loop of `main` emits no comment for the hunk; the removed
line made of `-` and `//% foo` is such a body. -/
theorem no_added_line_no_comment (body : List Char)
    (hbody : ∀ l ∈ linesOf body, l.head? ≠ some '+') :
    findAllSubmatch body = [] ∧ parseHunkToText body = [] ∧
      (∀ (σ : Type) (T : Tools σ) (revisionID : String) (d : FileDiff) (line : Int)
        (wd : World σ), hunkStep T revisionID d wd ⟨line, body⟩ = wd) ∧
      parseHunkToText "-//% foo\n".toList = [] := by
  have hnone : findAllSubmatch body = [] := by
    apply findAllFrom_no_plus body none
    · intro _
      cases body with
      | nil => simp
      | cons x xs =>
        intro hx
        have hx2 : x = '+' := by simpa using hx
        subst hx2
        have hxn : ('+' : Char) ≠ '\n' := by decide
        cases hxs : linesOf xs with
        | nil => exact linesOf_ne_nil xs hxs
        | cons l ls =>
          have := hbody ('+' :: l) (by simp [linesOf, hxn, hxs])
          simp at this
    · intro l hl
      exact hbody l (List.mem_of_mem_tail hl)
  have hparse := parseHunkToText_no_match _ hnone
  refine ⟨hnone, hparse, ?_, by decide⟩
  intro σ T revisionID d line wd
  exact hunkStep_skip T revisionID d wd _ (by simp [hparse, stringsTrimSpace])

/-- Witness of C8: removed lines that carry marker text, and a context line. -/
theorem no_added_line_no_comment_witness :
    (∀ l ∈ linesOf "-//% foo\n-#% bar\n //% baz\n".toList, l.head? ≠ some '+') ∧
      parseHunkToText "-//% foo\n-#% bar\n //% baz\n".toList = [] :=
  ⟨by decide, (no_added_line_no_comment "-//% foo\n-#% bar\n //% baz\n".toList (by decide)).2.1⟩

/-- C9: failures of single submissions are isolated.  For every parsed diff the
sequence of payloads handed to the submission tool by `main` is the same
whatever the tool answers (any two tools, with any state of their own, see the
same attempts), and in every run the browse step for `HEAD` is attempted after
the loop, with no submission after it.  With a tool that rejects every
comment, both comments of `twoCommentDiff` are attempted and the run then
opens the browser and exits with status 0. -/
theorem submission_failures_isolated {σ τ : Type} (T1 : Tools σ) (T2 : Tools τ)
    (revisionID : String) (p : List FileDiff) (s1 : σ) (s2 : τ) :
    submissions (main T1 revisionID p ⟨s1, []⟩).2.trace =
        submissions (main T2 revisionID p ⟨s2, []⟩).2.trace ∧
      (∃ post, (main T1 revisionID p ⟨s1, []⟩).2.trace =
          (mainLoop T1 revisionID p ⟨s1, []⟩).trace ++ Event.browse "HEAD" :: post ∧
        submissions post = []) ∧
      (main rejectingTools "42" twoCommentDiff ⟨(), []⟩).1 = 0 ∧
      (main rejectingTools "42" twoCommentDiff ⟨(), []⟩).2.trace =
        [Event.logComment "a.go" 4 "first".toList,
         Event.conduit ⟨"42", "a.go", 1, 4, "first".toList⟩,
         Event.logPayload ⟨"42", "a.go", 1, 4, "first".toList⟩,
         Event.logConduitOutput,
         Event.logSubmitError,
         Event.logComment "a.go" 8 "second".toList,
         Event.conduit ⟨"42", "a.go", 1, 8, "second".toList⟩,
         Event.logPayload ⟨"42", "a.go", 1, 8, "second".toList⟩,
         Event.logConduitOutput,
         Event.logSubmitError,
         Event.browse "HEAD"] := by
  have hsub : ∀ (ρ : Type) (T : Tools ρ) (s : ρ),
      submissions (main T revisionID p ⟨s, []⟩).2.trace =
        p.flatMap (fun d =>
          (d.Hunks.filter (fun h => producesComment h)).map (commentOf revisionID d)) := by
    intro ρ T s
    obtain ⟨post, htrace, hpost⟩ := main_trace T revisionID p ⟨s, []⟩
    rw [htrace, submissions_append, mainLoop_submissions]
    have hb : submissions (Event.browse "HEAD" :: post) = submissions post := rfl
    rw [hb, hpost]
    simp [submissions]
  refine ⟨by rw [hsub σ T1 s1, hsub τ T2 s2], main_trace T1 revisionID p ⟨s1, []⟩, ?_, ?_⟩
  · decide
  · decide

/-- C10, as the code has it: the body of every emitted comment is trimmed of
spaces and tabs only.  For every hunk body for which a comment is emitted, the
result of `parseHunkToText` does not begin with a whitespace character (space,
tab, carriage return, form feed or newline) and does not end with a space or a
tab. -/
theorem comment_body_trimmed (body : List Char)
    (hemit : stringsTrimSpace (parseHunkToText body) ≠ []) :
    (parseHunkToText body).head?.any isSpaceClass = false ∧
      ∀ c, (parseHunkToText body).getLast? = some c → c ≠ ' ' ∧ c ≠ '\t' := by
  constructor
  · cases hsubs : findAllSubmatch body with
    | nil =>
      exact absurd (by simp [parseHunkToText_no_match body hsubs, stringsTrimSpace]) hemit
    | cons sub rest =>
      obtain ⟨hne, hcase⟩ := findAllFrom_first body none sub rest hsubs
      rcases hcase with hhead | ⟨hrest, hall⟩
      · cases hg : sub.group1 with
        | nil => exact absurd hg hne
        | cons x xs =>
          have hx : isSpaceClass x = false := by simpa [hg] using hhead
          have hjoin : (stringsJoin ((sub :: rest).map (fun l => l.group1)) ['\n']).head?
              = some x := by
            rw [List.map_cons, stringsJoin_head _ _ _ hne, hg]
            rfl
          have hcut : x ∉ [' ', '\t'] := by
            intro hmem
            simp only [List.mem_cons, List.mem_singleton, List.not_mem_nil, or_false] at hmem
            rcases hmem with rfl | rfl <;> simp [isSpaceClass] at hx
          have := stringsTrim_keeps_head _ _ x hjoin hcut
          simp only [parseHunkToText, hsubs]
          rw [this]
          simpa using hx
      · have hblank : ∀ m ∈ findAllSubmatch body, stringsTrimSpace m.group1 = [] := by
          intro m hm
          rw [hsubs, hrest] at hm
          have : m = sub := by simpa using hm
          subst this
          exact stringsTrimSpace_nil_of_all _ (fun c hc => isSpaceClass_unicode c (hall c hc))
        exact absurd (parseHunkToText_blank body hblank) hemit
  · intro c hc
    have := stringsTrim_getLast _ _ c hc
    simp only [List.mem_cons, List.mem_singleton, List.not_mem_nil, or_false, not_or] at this
    exact this

/-- Witness of C10 as amended: a marker line with blanks around its text. -/
theorem comment_body_trimmed_witness :
    stringsTrimSpace (parseHunkToText "+//% \t foo \t\n".toList) ≠ [] ∧
      parseHunkToText "+//% \t foo \t\n".toList = "foo".toList ∧
      (parseHunkToText "+//% \t foo \t\n".toList).head?.any isSpaceClass = false :=
  ⟨by decide, by decide,
    (comment_body_trimmed "+//% \t foo \t\n".toList (by decide)).1⟩

/-- C10 as stated fails: for a marker line of a file with CRLF line ends a
comment is emitted and its body ends with a carriage return; after a marker
line with text, a last marker line that carries blanks only leaves a body that
ends with a newline. -/
theorem comment_body_may_end_with_whitespace :
    stringsTrimSpace (parseHunkToText "+//% foo\r\n".toList) ≠ [] ∧
      parseHunkToText "+//% foo\r\n".toList = "foo\r".toList ∧
      (parseHunkToText "+//% foo\r\n".toList).getLast? = some '\r' ∧
      submissions (hunkStep acceptingTools "42" ⟨"a.go", []⟩ ⟨(), []⟩
          ⟨10, "+//% foo\r\n".toList⟩).trace =
        [⟨"42", "a.go", 1, 11, "foo\r".toList⟩] ∧
      stringsTrimSpace (parseHunkToText "+//% foo\n+//%  ".toList) ≠ [] ∧
      parseHunkToText "+//% foo\n+//%  ".toList = "foo\n".toList := by
  decide

end InlineReview
